import Mathlib

/-!
Verification of the GPX GOT-points calculator.

Shallow embedding of the two Go source files (`gpx.go` and the unnamed
variant with day bucketing).  Go `float64` fields are modelled as exact
numbers: `ℚ` for the arithmetic pipeline (smoothing, ascent, scoring),
`ℝ` for the trigonometric haversine distance.  `TrackPoint` is therefore
parametric in the scalar type; the Go struct's `XMLName` (XML glue) is
omitted and `Time` is modelled as Unix seconds.
-/

/-- A `<trkpt>` element: latitude, longitude (degrees), elevation (meters)
and a timestamp in Unix seconds (`gpx.go`'s variant simply never reads it). -/
structure TrackPoint (α : Type) where
  latitude : α
  longitude : α
  elevation : α
  time : Int
deriving DecidableEq, Inhabited, Repr

/-- Source `calculateCumulativeAscent`: two-state hysteresis filter
over consecutive elevation deltas.  The Go loop
`for i := 1; i < len(points); i++` with state `(totalAscent, climb, prevEle)`
becomes a `foldl` over the tail of the list. -/
def calculateCumulativeAscent (points : List (TrackPoint ℚ)) (threshold : ℚ) : ℚ :=
  if points.length < 2 then 0
  else
    match points with
    | [] => 0
    | p :: rest =>
      let st := rest.foldl
        (fun (s : ℚ × ℚ × ℚ) q =>
          let totalAscent := s.1
          let climb := s.2.1
          let prevEle := s.2.2
          let diff := q.elevation - prevEle
          if diff > 0 then
            (totalAscent, climb + diff, q.elevation)
          else
            (if climb ≥ threshold then totalAscent + climb else totalAscent,
             0, q.elevation))
        (0, 0, p.elevation)
      if st.2.1 ≥ threshold then st.1 + st.2.1 else st.1

/-- The list of consecutive elevation deltas `elevation[i] - elevation[i-1]`
of a point sequence. -/
def deltas (points : List (TrackPoint ℚ)) : List ℚ :=
  List.zipWith (fun a b => b.elevation - a.elevation) points points.tail

/-- One step of the hysteresis filter as the spec words it, acting on a
pair `(total, climb)` and a delta. -/
def hysteresisStep (T : ℚ) (s : ℚ × ℚ) (d : ℚ) : ℚ × ℚ :=
  if d > 0 then (s.1, s.2 + d)
  else (if s.2 ≥ T then s.1 + s.2 else s.1, 0)

/-- The spec-side total: fold the hysteresis step over a delta list and
flush the final climb when it reaches the threshold. -/
def hysteresisTotal (ds : List ℚ) (T : ℚ) : ℚ :=
  let s := ds.foldl (hysteresisStep T) (0, 0)
  if s.2 ≥ T then s.1 + s.2 else s.1

/-- The naive ascent: sum of the positive consecutive deltas. -/
def naiveAscent (points : List (TrackPoint ℚ)) : ℚ :=
  ((deltas points).map (fun d => max d 0)).sum

/-- Sums of the maximal runs of consecutive strictly positive deltas;
`c` is the sum of the positive run currently open (`0` if none). -/
def runSumsAux (c : ℚ) : List ℚ → List ℚ
  | [] => if 0 < c then [c] else []
  | d :: ds =>
      if 0 < d then runSumsAux (c + d) ds
      else if 0 < c then c :: runSumsAux 0 ds
      else runSumsAux 0 ds

/-- The climb totals of the maximal strictly-increasing runs of a
delta list. -/
def maxRunSums (ds : List ℚ) : List ℚ := runSumsAux 0 ds

/-- Rewriting of `deltas` of a cons as deltas measured from a given previous elevation. -/
def deltasFrom (prevEle : ℚ) : List (TrackPoint ℚ) → List ℚ
  | [] => []
  | q :: rest => (q.elevation - prevEle) :: deltasFrom q.elevation rest

/-- A rational track point at the origin with a given elevation, used for
concrete elevation-profile examples. -/
def tpQ (e : ℚ) : TrackPoint ℚ := ⟨0, 0, e, 0⟩

/-- A rational track point at the origin with a given timestamp, used for
concrete day-bucketing examples. -/
def tpT (t : Int) : TrackPoint ℚ := ⟨0, 0, 0, t⟩

/-- Go's `math.Round`: round to the nearest integer, ties away from
zero. -/
def mathRound (x : ℚ) : Int :=
  if x < 0 then -⌊-x + 1/2⌋ else ⌊x + 1/2⌋

/-- Source `calculateGOTAscent`: `int(math.Round(n / 100.0))`. -/
def calculateGOTAscent (n : ℚ) : Int := mathRound (n / 100)

/-- Source `calculateGOTDistance`: `int(math.Round(n))`. -/
def calculateGOTDistance (n : ℚ) : Int := mathRound n

/-- Source `calculateDailyGOTPoints`. -/
def calculateDailyGOTPoints (distance ascent : Int) : Int := distance + ascent

/-- The per-day score report of `main`: the three printed point values and
whether the `gotSum >= 50` branch (the LIMIT line showing 50) is taken. -/
structure ScoreCard where
  distancePoints : Int
  ascentPoints : Int
  totalPoints : Int
  cappedAt50 : Bool
deriving DecidableEq, Repr

/-- The scoring logic of `main` applied to one day's Result: GOT distance
and ascent points, their sum, and the cap flag of the report branch. -/
def scoreReport (distanceKm ascentMeters : ℚ) : ScoreCard :=
  let gotDistance := calculateGOTDistance distanceKm
  let gotAscent := calculateGOTAscent ascentMeters
  let gotSum := calculateDailyGOTPoints gotDistance gotAscent
  ⟨gotDistance, gotAscent, gotSum, decide (gotSum ≥ 50)⟩

/-- The clipped index window `[start..end]` of the two Go smoothing loops:
`start := i - half; if start < 0 { start = 0 }` and
`end := i + half; if end >= len(points) { end = len(points) - 1 }`. -/
def windowIdxs (n : Nat) (half : Int) (i : Nat) : List Nat :=
  let start := if (i : Int) - half < 0 then 0 else (i : Int) - half
  let stop := if (i : Int) + half ≥ (n : Int) then (n : Int) - 1 else (i : Int) + half
  List.range' start.toNat (stop + 1 - start).toNat

/-- Source `applyMovingAverage`: for each index the elevation is
replaced by the window sum divided by the window count; the point is first
copied (`smoothedPoints[i] = points[i]`). -/
def applyMovingAverage (points : List (TrackPoint ℚ)) (windowSize : Int) :
    List (TrackPoint ℚ) :=
  if windowSize < 1 ∨ points.length = 0 then points
  else
    let ws := if windowSize % 2 = 0 then windowSize + 1 else windowSize
    let halfWindow := ws / 2
    (List.range points.length).map (fun i =>
      let elevs := (windowIdxs points.length halfWindow i).map
        (fun j => (points.getD j default).elevation)
      { points.getD i default with elevation := elevs.sum / (elevs.length : ℚ) })

/-- Source `applyLatLonSmoothing`: same loop, replacing latitude
and longitude by their window means (same count divides both sums). -/
def applyLatLonSmoothing (points : List (TrackPoint ℚ)) (windowSize : Int) :
    List (TrackPoint ℚ) :=
  if windowSize < 1 ∨ points.length = 0 then points
  else
    let ws := if windowSize % 2 = 0 then windowSize + 1 else windowSize
    let half := ws / 2
    (List.range points.length).map (fun i =>
      let lats := (windowIdxs points.length half i).map
        (fun j => (points.getD j default).latitude)
      let lons := (windowIdxs points.length half i).map
        (fun j => (points.getD j default).longitude)
      { points.getD i default with
          latitude := lats.sum / (lats.length : ℚ)
          longitude := lons.sum / (lons.length : ℚ) })

/-- The smoothed value as the spec words it: the arithmetic mean of the
field over input indices `max(0, i - W'/2)` to `min(n-1, i + W'/2)` where
`W' = W+1` for even `W`, with the divisor equal to the actual number of
points in the clipped window. -/
def specWindowMean (xs : List ℚ) (W : Int) (i : Nat) : ℚ :=
  let Wn := if W % 2 = 0 then W + 1 else W
  let h := (Wn / 2).toNat
  let lo := i - h
  let hi := min (i + h) (xs.length - 1)
  ((List.range' lo (hi + 1 - lo)).map (fun j => xs.getD j 0)).sum
    / ((hi + 1 - lo : Nat) : ℚ)

/-- Civil date (proleptic Gregorian year, month, day) from a count of days
since 1970-01-01; the standard era-based conversion, modelling what Go's
`Time.Format("2006-01-02")` prints for a given day number. -/
def civilFromDays (z0 : Int) : Int × Int × Int :=
  let z := z0 + 719468
  let era := z.fdiv 146097
  let doe := z - era * 146097
  let yoe := (doe - doe.fdiv 1460 + doe.fdiv 36524 - doe.fdiv 146096).fdiv 365
  let y := yoe + era * 400
  let doy := doe - (365 * yoe + yoe.fdiv 4 - yoe.fdiv 100)
  let mp := (5 * doy + 2).fdiv 153
  let d := doy - (153 * mp + 2).fdiv 5 + 1
  let m := if mp < 10 then mp + 3 else mp - 9
  (if m ≤ 2 then y + 1 else y, m, d)

/-- The local calendar date of a point in a timezone modelled as a fixed
UTC offset in seconds: Go's `p.Time.In(location)` followed by
`Format("2006-01-02")`. -/
def localDay (offsetSeconds : Int) (p : TrackPoint ℚ) : Int × Int × Int :=
  civilFromDays ((p.time + offsetSeconds).fdiv 86400)

/-- Source `groupByDay`: a left fold appending each point to the
bucket of its local day; Go's `map[string][]TrackPoint` is modelled as a
function from day keys to buckets, absent keys holding `[]`. -/
def groupByDay (points : List (TrackPoint ℚ)) (offsetSeconds : Int) :
    Int × Int × Int → List (TrackPoint ℚ) :=
  points.foldl
    (fun grouped p k =>
      if k = localDay offsetSeconds p then grouped k ++ [p] else grouped k)
    (fun _ => [])

/-- Source `toRadians`. -/
noncomputable def toRadians (deg : ℝ) : ℝ := deg * Real.pi / 180

/-- Source `earthRadius`, in kilometers. -/
def earthRadius : ℚ := 6371

/-- Go's `math.Atan2` on finite arguments. -/
noncomputable def atan2 (y x : ℝ) : ℝ :=
  if 0 < x then Real.arctan (y / x)
  else if x < 0 then
    (if 0 ≤ y then Real.arctan (y / x) + Real.pi else Real.arctan (y / x) - Real.pi)
  else (if 0 < y then Real.pi / 2 else if y < 0 then -(Real.pi / 2) else 0)

/-- The haversine intermediate `a` of the source, named for the proofs. -/
noncomputable def havA (p1 p2 : TrackPoint ℝ) : ℝ :=
  Real.sin ((toRadians p2.latitude - toRadians p1.latitude)/2) *
    Real.sin ((toRadians p2.latitude - toRadians p1.latitude)/2) +
  Real.cos (toRadians p1.latitude) * Real.cos (toRadians p2.latitude) *
    Real.sin ((toRadians p2.longitude - toRadians p1.longitude)/2) *
    Real.sin ((toRadians p2.longitude - toRadians p1.longitude)/2)

/-- Source `haversineDistance2D`, over real-valued points. -/
noncomputable def haversineDistance2D (p1 p2 : TrackPoint ℝ) : ℝ :=
  let lat1 := toRadians p1.latitude
  let lon1 := toRadians p1.longitude
  let lat2 := toRadians p2.latitude
  let lon2 := toRadians p2.longitude
  let dLat := lat2 - lat1
  let dLon := lon2 - lon1
  let a := Real.sin (dLat/2) * Real.sin (dLat/2) +
    Real.cos lat1 * Real.cos lat2 * Real.sin (dLon/2) * Real.sin (dLon/2)
  let c := 2 * atan2 (Real.sqrt a) (Real.sqrt (1 - a))
  (earthRadius : ℝ) * c

theorem deltas_cons (p : TrackPoint ℚ) (rest : List (TrackPoint ℚ)) :
    deltas (p :: rest) = deltasFrom p.elevation rest := by
  induction rest generalizing p with
  | nil => rfl
  | cons q rest ih =>
      simp only [deltas, List.tail_cons, List.zipWith, deltasFrom]
      exact congrArg _ (ih q)

/-- The Go loop state is `(total, climb, prevEle)`; projecting away
`prevEle` it is the hysteresis fold over the deltas measured from
`prevEle`. -/
theorem ascent_loop_eq_hysteresis (T : ℚ) (rest : List (TrackPoint ℚ))
    (total climb prevEle : ℚ) :
    (rest.foldl
      (fun (s : ℚ × ℚ × ℚ) q =>
        let totalAscent := s.1
        let climb := s.2.1
        let prevEle := s.2.2
        let diff := q.elevation - prevEle
        if diff > 0 then
          (totalAscent, climb + diff, q.elevation)
        else
          (if climb ≥ T then totalAscent + climb else totalAscent,
           0, q.elevation))
      (total, climb, prevEle)) =
    (((deltasFrom prevEle rest).foldl (hysteresisStep T) (total, climb)).1,
     ((deltasFrom prevEle rest).foldl (hysteresisStep T) (total, climb)).2,
     ((prevEle :: rest.map TrackPoint.elevation).getLast (by simp))) := by
  induction rest generalizing total climb prevEle with
  | nil => simp [deltasFrom]
  | cons q rest ih =>
      simp only [List.foldl_cons, deltasFrom]
      by_cases hd : q.elevation - prevEle > 0
      · rw [if_pos hd]
        rw [ih]
        have hs : hysteresisStep T (total, climb) (q.elevation - prevEle)
            = (total, climb + (q.elevation - prevEle)) := by
          simp [hysteresisStep, hd]
        rw [hs]
        have hlast : (prevEle :: (q :: rest).map TrackPoint.elevation).getLast (by simp)
            = (q.elevation :: rest.map TrackPoint.elevation).getLast (by simp) := by
          simp [List.getLast_cons]
        rw [hlast]
      · rw [if_neg hd]
        rw [ih]
        have hs : hysteresisStep T (total, climb) (q.elevation - prevEle)
            = (if climb ≥ T then total + climb else total, 0) := by
          simp only [hysteresisStep, if_neg hd]
        rw [hs]
        have hlast : (prevEle :: (q :: rest).map TrackPoint.elevation).getLast (by simp)
            = (q.elevation :: rest.map TrackPoint.elevation).getLast (by simp) := by
          simp [List.getLast_cons]
        rw [hlast]

/-- Bridge: on sequences of at least two points the source function equals
the spec-side hysteresis total over the delta list, and otherwise it
returns 0. -/
theorem calculateCumulativeAscent_eq (points : List (TrackPoint ℚ)) (T : ℚ) :
    calculateCumulativeAscent points T =
      if 2 ≤ points.length then hysteresisTotal (deltas points) T else 0 := by
  by_cases h : 2 ≤ points.length
  · rw [if_pos h]
    match points with
    | [] => simp at h
    | p :: rest =>
        unfold calculateCumulativeAscent
        rw [if_neg (by omega)]
        simp only
        rw [ascent_loop_eq_hysteresis]
        rw [deltas_cons]
        rfl
  · rw [if_neg h]
    unfold calculateCumulativeAscent
    rw [if_pos (by omega)]

/-- With a nonpositive threshold every flush commits, so total plus climb
advances by exactly the positive part of each delta. -/
theorem hysteresis_fold_nonpos (T : ℚ) (hT : T ≤ 0) (ds : List ℚ) :
    ∀ t c : ℚ, 0 ≤ c →
      (ds.foldl (hysteresisStep T) (t, c)).1 + (ds.foldl (hysteresisStep T) (t, c)).2
        = t + c + (ds.map (fun d => max d 0)).sum := by
  induction ds with
  | nil => intro t c _; simp
  | cons d ds ih =>
      intro t c hc
      simp only [List.foldl_cons, List.map_cons, List.sum_cons]
      by_cases hd : d > 0
      · have hs : hysteresisStep T (t, c) d = (t, c + d) := by simp [hysteresisStep, hd]
        rw [hs, ih t (c + d) (by linarith)]
        have : max d 0 = d := max_eq_left (le_of_lt hd)
        rw [this]; ring
      · have hcommit : c ≥ T := le_trans hT hc
        have hs : hysteresisStep T (t, c) d = (t + c, 0) := by
          simp [hysteresisStep, hd, hcommit]
        rw [hs, ih (t + c) 0 le_rfl]
        have : max d 0 = 0 := max_eq_right (by linarith)
        rw [this]; ring

/-- The running climb of the hysteresis fold is never negative. -/
theorem hysteresis_fold_climb_nonneg (T : ℚ) (ds : List ℚ) :
    ∀ t c : ℚ, 0 ≤ c → 0 ≤ (ds.foldl (hysteresisStep T) (t, c)).2 := by
  induction ds with
  | nil => intro t c hc; exact hc
  | cons d ds ih =>
      intro t c hc
      simp only [List.foldl_cons]
      by_cases hd : d > 0
      · have hs : hysteresisStep T (t, c) d = (t, c + d) := by simp [hysteresisStep, hd]
        rw [hs]; exact ih t (c + d) (by linarith)
      · have hs : hysteresisStep T (t, c) d
            = (if c ≥ T then t + c else t, 0) := by simp [hysteresisStep, hd]
        rw [hs]; exact ih _ 0 le_rfl

/-- For a nonpositive threshold the source ascent is the naive sum of
positive deltas. -/
theorem ascent_nonpos_threshold (points : List (TrackPoint ℚ)) (T : ℚ) (hT : T ≤ 0) :
    calculateCumulativeAscent points T = naiveAscent points := by
  rw [calculateCumulativeAscent_eq]
  by_cases h : 2 ≤ points.length
  · rw [if_pos h]
    unfold hysteresisTotal naiveAscent
    have hflush : T ≤ ((deltas points).foldl (hysteresisStep T) (0, 0)).2 :=
      le_trans hT (hysteresis_fold_climb_nonneg T (deltas points) 0 0 le_rfl)
    simp only [ge_iff_le, if_pos hflush]
    have := hysteresis_fold_nonpos T hT (deltas points) 0 0 le_rfl
    rw [this]; ring
  · rw [if_neg h]
    match points with
    | [] => simp [naiveAscent, deltas]
    | [p] => simp [naiveAscent, deltas]
    | p :: q :: rest => exact absurd (by simp only [List.length_cons]; omega) h

/-- A strictly positive open climb is bounded by one of the run sums it
feeds into. -/
theorem runSumsAux_le_mem (ds : List ℚ) :
    ∀ c : ℚ, 0 < c → ∃ s ∈ runSumsAux c ds, c ≤ s := by
  induction ds with
  | nil => intro c hc; exact ⟨c, by simp [runSumsAux, hc], le_rfl⟩
  | cons d ds ih =>
      intro c hc
      by_cases hd : 0 < d
      · obtain ⟨s, hs, hle⟩ := ih (c + d) (by linarith)
        exact ⟨s, by simpa [runSumsAux, hd] using hs, by linarith⟩
      · exact ⟨c, by simp [runSumsAux, hd, hc], le_rfl⟩

/-- When every maximal climb run (including the one currently open with
accumulated climb `c`) stays below the threshold, the hysteresis filter
commits nothing: the flushed total is the starting total. -/
theorem hysteresis_below_runs (T : ℚ) (ds : List ℚ) :
    ∀ t c : ℚ, 0 ≤ c → (∀ s ∈ runSumsAux c ds, s < T) →
      (if ((ds.foldl (hysteresisStep T) (t, c)).2) ≥ T
       then (ds.foldl (hysteresisStep T) (t, c)).1 + (ds.foldl (hysteresisStep T) (t, c)).2
       else (ds.foldl (hysteresisStep T) (t, c)).1) = t := by
  induction ds with
  | nil =>
      intro t c hc hruns
      simp only [List.foldl_nil]
      rcases lt_or_eq_of_le hc with hpos | hzero
      · have : c < T := hruns c (by simp [runSumsAux, hpos])
        rw [if_neg (by exact not_le.mpr this)]
      · subst hzero
        by_cases hT : (0 : ℚ) ≥ T
        · rw [if_pos hT, add_zero]
        · rw [if_neg hT]
  | cons d ds ih =>
      intro t c hc hruns
      simp only [List.foldl_cons]
      by_cases hd : 0 < d
      · have hs : hysteresisStep T (t, c) d = (t, c + d) := by simp [hysteresisStep, hd]
        rw [hs]
        refine ih t (c + d) (by linarith) ?_
        intro s hsmem
        exact hruns s (by simpa [runSumsAux, hd] using hsmem)
      · rcases lt_or_eq_of_le hc with hpos | hzero
        · have hcT : c < T := hruns c (by simp [runSumsAux, hd, hpos])
          have hs : hysteresisStep T (t, c) d = (t, 0) := by
            simp [hysteresisStep, hd, not_le.mpr hcT]
          rw [hs]
          refine ih t 0 le_rfl ?_
          intro s hsmem
          exact hruns s (by simp [runSumsAux, hd, hpos, hsmem])
        · subst hzero
          have hs : hysteresisStep T (t, 0) d = (if (0:ℚ) ≥ T then t + 0 else t, 0) := by
            simp [hysteresisStep, hd]
          rw [hs]
          have hval : (if (0:ℚ) ≥ T then t + 0 else t) = t := by
            by_cases hT : (0 : ℚ) ≥ T <;> simp [hT]
          rw [hval]
          refine ih t 0 le_rfl ?_
          intro s hsmem
          refine hruns s ?_
          simpa [runSumsAux, hd] using hsmem

/-- The flushed total of the hysteresis fold is monotone in the starting
total and antitone in the threshold. -/
theorem hysteresis_fold_antitone (T1 T2 : ℚ) (hT : T1 ≤ T2) (ds : List ℚ) :
    ∀ t1 t2 c : ℚ, 0 ≤ c → t2 ≤ t1 →
      (if ((ds.foldl (hysteresisStep T2) (t2, c)).2) ≥ T2
       then (ds.foldl (hysteresisStep T2) (t2, c)).1 + (ds.foldl (hysteresisStep T2) (t2, c)).2
       else (ds.foldl (hysteresisStep T2) (t2, c)).1)
      ≤ (if ((ds.foldl (hysteresisStep T1) (t1, c)).2) ≥ T1
       then (ds.foldl (hysteresisStep T1) (t1, c)).1 + (ds.foldl (hysteresisStep T1) (t1, c)).2
       else (ds.foldl (hysteresisStep T1) (t1, c)).1) := by
  induction ds with
  | nil =>
      intro t1 t2 c hc ht
      simp only [List.foldl_nil]
      by_cases h2 : c ≥ T2
      · rw [if_pos h2, if_pos (le_trans hT h2)]; linarith
      · rw [if_neg h2]
        by_cases h1 : c ≥ T1
        · rw [if_pos h1]; linarith
        · rw [if_neg h1]; exact ht
  | cons d ds ih =>
      intro t1 t2 c hc ht
      simp only [List.foldl_cons]
      by_cases hd : d > 0
      · have hs1 : hysteresisStep T1 (t1, c) d = (t1, c + d) := by simp [hysteresisStep, hd]
        have hs2 : hysteresisStep T2 (t2, c) d = (t2, c + d) := by simp [hysteresisStep, hd]
        rw [hs1, hs2]
        exact ih t1 t2 (c + d) (by linarith) ht
      · have hs1 : hysteresisStep T1 (t1, c) d = (if c ≥ T1 then t1 + c else t1, 0) := by
          simp [hysteresisStep, hd]
        have hs2 : hysteresisStep T2 (t2, c) d = (if c ≥ T2 then t2 + c else t2, 0) := by
          simp [hysteresisStep, hd]
        rw [hs1, hs2]
        refine ih _ _ 0 le_rfl ?_
        by_cases h2 : c ≥ T2
        · rw [if_pos h2, if_pos (le_trans hT h2)]; linarith
        · rw [if_neg h2]
          by_cases h1 : c ≥ T1
          · rw [if_pos h1]; linarith
          · rw [if_neg h1]; exact ht

/-- Nonnegative starting state keeps the flushed total nonnegative. -/
theorem hysteresis_fold_nonneg (T : ℚ) (ds : List ℚ) :
    ∀ t c : ℚ, 0 ≤ t → 0 ≤ c →
      0 ≤ (if ((ds.foldl (hysteresisStep T) (t, c)).2) ≥ T
       then (ds.foldl (hysteresisStep T) (t, c)).1 + (ds.foldl (hysteresisStep T) (t, c)).2
       else (ds.foldl (hysteresisStep T) (t, c)).1) := by
  induction ds with
  | nil =>
      intro t c ht hc
      simp only [List.foldl_nil]
      by_cases h : c ≥ T
      · rw [if_pos h]; linarith
      · rw [if_neg h]; exact ht
  | cons d ds ih =>
      intro t c ht hc
      simp only [List.foldl_cons]
      by_cases hd : d > 0
      · have hs : hysteresisStep T (t, c) d = (t, c + d) := by simp [hysteresisStep, hd]
        rw [hs]; exact ih t (c + d) ht (by linarith)
      · have hs : hysteresisStep T (t, c) d = (if c ≥ T then t + c else t, 0) := by
          simp [hysteresisStep, hd]
        rw [hs]
        refine ih _ 0 ?_ le_rfl
        by_cases h : c ≥ T
        · rw [if_pos h]; linarith
        · rw [if_neg h]; exact ht

/-- C1: for sequences of at least 2 points, `calculateCumulativeAscent`
returns the total of the two-state hysteresis filter over the consecutive
elevation deltas (positive deltas accumulate into a climb; a nonpositive
delta commits the climb iff it reaches the threshold and resets it; the
final climb is likewise flushed); for fewer than 2 points it returns 0. -/
theorem ascent_is_hysteresis_filter (points : List (TrackPoint ℚ)) (T : ℚ) :
    calculateCumulativeAscent points T =
      if 2 ≤ points.length then hysteresisTotal (deltas points) T else 0 :=
  calculateCumulativeAscent_eq points T

/-- C5: with a threshold ≤ 0 the ascent equals the naive sum of positive
consecutive deltas; in particular threshold 0 on elevations
[0, 10, 20, 30] gives exactly 30. -/
theorem ascent_degenerate_threshold :
    (∀ (points : List (TrackPoint ℚ)) (T : ℚ), T ≤ 0 →
      calculateCumulativeAscent points T = naiveAscent points) ∧
    calculateCumulativeAscent [tpQ 0, tpQ 10, tpQ 20, tpQ 30] 0 = 30 :=
  ⟨fun points T hT => ascent_nonpos_threshold points T hT,
   by norm_num [calculateCumulativeAscent, tpQ]⟩

theorem ascent_degenerate_threshold_witness :
    calculateCumulativeAscent [tpQ 5, tpQ 7, tpQ 4, tpQ 6] (-1)
      = naiveAscent [tpQ 5, tpQ 7, tpQ 4, tpQ 6] :=
  ascent_degenerate_threshold.1 [tpQ 5, tpQ 7, tpQ 4, tpQ 6] (-1) (by norm_num)

/-- C6: when every maximal strictly-increasing elevation run accumulates a
climb strictly below the threshold, the ascent is exactly 0; in particular
threshold 5 on elevations [0, 3, 0, 3, 0] gives 0. -/
theorem ascent_subthreshold_runs_zero :
    (∀ (points : List (TrackPoint ℚ)) (T : ℚ),
      (∀ s ∈ maxRunSums (deltas points), s < T) →
      calculateCumulativeAscent points T = 0) ∧
    calculateCumulativeAscent [tpQ 0, tpQ 3, tpQ 0, tpQ 3, tpQ 0] 5 = 0 := by
  constructor
  · intro points T hruns
    rw [calculateCumulativeAscent_eq]
    by_cases h : 2 ≤ points.length
    · rw [if_pos h]
      unfold hysteresisTotal
      exact hysteresis_below_runs T (deltas points) 0 0 le_rfl hruns
    · rw [if_neg h]
  · norm_num [calculateCumulativeAscent, tpQ]

theorem ascent_subthreshold_runs_zero_witness :
    calculateCumulativeAscent [tpQ 10, tpQ 12, tpQ 11, tpQ 13, tpQ 11] 4 = 0 :=
  ascent_subthreshold_runs_zero.1 [tpQ 10, tpQ 12, tpQ 11, tpQ 13, tpQ 11] 4
    (by norm_num [maxRunSums, runSumsAux, deltas, tpQ])

/-- C10: the ascent is antitone in the threshold, and for a nonnegative
threshold it lies between 0 and the naive sum of positive deltas. -/
theorem ascent_threshold_antitone (points : List (TrackPoint ℚ)) (T1 T2 T : ℚ) :
    (T1 ≤ T2 → calculateCumulativeAscent points T2 ≤ calculateCumulativeAscent points T1) ∧
    (0 ≤ T → 0 ≤ calculateCumulativeAscent points T ∧
      calculateCumulativeAscent points T ≤ naiveAscent points) := by
  have hanti : ∀ S1 S2 : ℚ, S1 ≤ S2 →
      calculateCumulativeAscent points S2 ≤ calculateCumulativeAscent points S1 := by
    intro S1 S2 hS
    rw [calculateCumulativeAscent_eq, calculateCumulativeAscent_eq]
    by_cases h : 2 ≤ points.length
    · rw [if_pos h, if_pos h]
      unfold hysteresisTotal
      exact hysteresis_fold_antitone S1 S2 hS (deltas points) 0 0 0 le_rfl le_rfl
    · rw [if_neg h, if_neg h]
  refine ⟨hanti T1 T2, fun hT => ⟨?_, ?_⟩⟩
  · rw [calculateCumulativeAscent_eq]
    by_cases h : 2 ≤ points.length
    · rw [if_pos h]
      unfold hysteresisTotal
      exact hysteresis_fold_nonneg T (deltas points) 0 0 le_rfl le_rfl
    · rw [if_neg h]
  · calc calculateCumulativeAscent points T
        ≤ calculateCumulativeAscent points 0 := hanti 0 T hT
      _ = naiveAscent points := ascent_nonpos_threshold points 0 le_rfl

theorem ascent_threshold_antitone_witness :
    calculateCumulativeAscent [tpQ 0, tpQ 3, tpQ 0, tpQ 3, tpQ 0] 5
        ≤ calculateCumulativeAscent [tpQ 0, tpQ 3, tpQ 0, tpQ 3, tpQ 0] 2 ∧
    0 ≤ calculateCumulativeAscent [tpQ 0, tpQ 3, tpQ 0, tpQ 3, tpQ 0] 2 ∧
    calculateCumulativeAscent [tpQ 0, tpQ 3, tpQ 0, tpQ 3, tpQ 0] 2
        ≤ naiveAscent [tpQ 0, tpQ 3, tpQ 0, tpQ 3, tpQ 0] :=
  ⟨(ascent_threshold_antitone [tpQ 0, tpQ 3, tpQ 0, tpQ 3, tpQ 0] 2 5 2).1 (by norm_num),
   (ascent_threshold_antitone [tpQ 0, tpQ 3, tpQ 0, tpQ 3, tpQ 0] 2 5 2).2 (by norm_num)⟩

/-- The rounding `mathRound` sends `q ≥ 0` into `[q - 1/2, q + 1/2]`, taking the
upper end at a tie. -/
theorem mathRound_bounds (q : ℚ) :
    |q - (mathRound q : ℚ)| ≤ 1/2 ∧
    (|q - (mathRound q : ℚ)| = 1/2 → |(mathRound q : ℚ)| = |q| + 1/2) := by
  by_cases hq : q < 0
  · have h1 : (⌊-q + 1/2⌋ : ℚ) ≤ -q + 1/2 := Int.floor_le _
    have h2 : -q + 1/2 < (⌊-q + 1/2⌋ : ℚ) + 1 := Int.lt_floor_add_one _
    have hr : (mathRound q : ℚ) = -(⌊-q + 1/2⌋ : ℚ) := by
      simp [mathRound, if_pos hq]
    constructor
    · rw [hr, abs_le]; constructor <;> linarith
    · intro habs
      rw [hr] at habs ⊢
      rcases (abs_eq (by norm_num : (0:ℚ) ≤ 1/2)).mp habs with he | he
      · have hrq : -(⌊-q + 1/2⌋ : ℚ) = q - 1/2 := by linarith
        rw [hrq, abs_of_neg (by linarith), abs_of_neg hq]
        ring
      · linarith
  · push_neg at hq
    have h1 : (⌊q + 1/2⌋ : ℚ) ≤ q + 1/2 := Int.floor_le _
    have h2 : q + 1/2 < (⌊q + 1/2⌋ : ℚ) + 1 := Int.lt_floor_add_one _
    have hr : (mathRound q : ℚ) = (⌊q + 1/2⌋ : ℚ) := by
      simp [mathRound, not_lt.mpr hq]
    constructor
    · rw [hr, abs_le]; constructor <;> linarith
    · intro habs
      rw [hr] at habs ⊢
      rcases (abs_eq (by norm_num : (0:ℚ) ≤ 1/2)).mp habs with he | he
      · linarith
      · have hrq : (⌊q + 1/2⌋ : ℚ) = q + 1/2 := by linarith
        rw [hrq, abs_of_nonneg (by linarith), abs_of_nonneg hq]

/-- C3: the score conversion rounds distance and ascent/100 to the nearest
integer with ties away from zero, totals them, and flags the cap exactly
when the total reaches 50; the two reference examples give (12, 6, 18,
uncapped) and (46, 8, 54, capped). -/
theorem score_conversion_and_cap :
    (∀ q : ℚ, |q - (mathRound q : ℚ)| ≤ 1/2 ∧
      (|q - (mathRound q : ℚ)| = 1/2 → |(mathRound q : ℚ)| = |q| + 1/2)) ∧
    (∀ distanceKm ascentMeters : ℚ,
      (scoreReport distanceKm ascentMeters).distancePoints
          = mathRound distanceKm ∧
      (scoreReport distanceKm ascentMeters).ascentPoints
          = mathRound (ascentMeters / 100) ∧
      (scoreReport distanceKm ascentMeters).totalPoints
          = mathRound distanceKm + mathRound (ascentMeters / 100) ∧
      ((scoreReport distanceKm ascentMeters).cappedAt50 = true ↔
        50 ≤ (scoreReport distanceKm ascentMeters).totalPoints)) ∧
    scoreReport (124/10) 560 = ⟨12, 6, 18, false⟩ ∧
    scoreReport (456/10) 820 = ⟨46, 8, 54, true⟩ := by
  refine ⟨mathRound_bounds, fun distanceKm ascentMeters => ⟨rfl, rfl, rfl, ?_⟩, ?_, ?_⟩
  · simp [scoreReport, calculateDailyGOTPoints, ge_iff_le]
  · norm_num [scoreReport, calculateGOTDistance, calculateGOTAscent,
      calculateDailyGOTPoints, mathRound, ScoreCard.mk.injEq]
  · norm_num [scoreReport, calculateGOTDistance, calculateGOTAscent,
      calculateDailyGOTPoints, mathRound, ScoreCard.mk.injEq]

theorem score_conversion_and_cap_witness :
    |(5/2 : ℚ) - (mathRound (5/2) : ℚ)| = 1/2 ∧
    |(mathRound ((5:ℚ)/2) : ℚ)| = |(5/2 : ℚ)| + 1/2 :=
  ⟨by norm_num [mathRound],
   (score_conversion_and_cap.1 (5/2)).2 (by norm_num [mathRound])⟩

theorem haversineDistance2D_eq_havA (p1 p2 : TrackPoint ℝ) :
    haversineDistance2D p1 p2 =
      (earthRadius : ℝ) *
        (2 * atan2 (Real.sqrt (havA p1 p2)) (Real.sqrt (1 - havA p1 p2))) := rfl

theorem havA_comm (a b : TrackPoint ℝ) : havA a b = havA b a := by
  unfold havA
  have e1 : Real.sin ((toRadians a.latitude - toRadians b.latitude)/2)
      = -Real.sin ((toRadians b.latitude - toRadians a.latitude)/2) := by
    rw [show (toRadians a.latitude - toRadians b.latitude)/2
        = -((toRadians b.latitude - toRadians a.latitude)/2) by ring, Real.sin_neg]
  have e2 : Real.sin ((toRadians a.longitude - toRadians b.longitude)/2)
      = -Real.sin ((toRadians b.longitude - toRadians a.longitude)/2) := by
    rw [show (toRadians a.longitude - toRadians b.longitude)/2
        = -((toRadians b.longitude - toRadians a.longitude)/2) by ring, Real.sin_neg]
  rw [e1, e2]
  ring

theorem havA_self (p : TrackPoint ℝ) : havA p p = 0 := by
  unfold havA
  simp [sub_self]

/-- C8: the haversine distance is symmetric in its two points, and the
distance from any point to itself is 0. -/
theorem haversine_symm_and_self :
    (∀ a b : TrackPoint ℝ, haversineDistance2D a b = haversineDistance2D b a) ∧
    (∀ p : TrackPoint ℝ, haversineDistance2D p p = 0) := by
  constructor
  · intro a b
    rw [haversineDistance2D_eq_havA, haversineDistance2D_eq_havA, havA_comm]
  · intro p
    rw [haversineDistance2D_eq_havA, havA_self]
    simp [atan2]

/-- The `groupByDay` fold evaluated at one key: starting map contents
followed by the points of that day in input order. -/
theorem groupByDay_foldl_apply (offsetSeconds : Int) (points : List (TrackPoint ℚ)) :
    ∀ (m : Int × Int × Int → List (TrackPoint ℚ)) (k : Int × Int × Int),
      (points.foldl
        (fun grouped p k2 =>
          if k2 = localDay offsetSeconds p then grouped k2 ++ [p] else grouped k2)
        m) k
      = m k ++ points.filter (fun p => decide (localDay offsetSeconds p = k)) := by
  induction points with
  | nil => intro m k; simp
  | cons p ps ih =>
      intro m k
      simp only [List.foldl_cons]
      rw [ih]
      rw [List.filter_cons]
      by_cases hk : k = localDay offsetSeconds p
      · simp only [if_pos hk, decide_eq_true_eq, if_pos hk.symm, List.append_assoc,
          List.singleton_append]
      · simp only [if_neg hk, decide_eq_true_eq]
        rw [if_neg (fun h => hk h.symm)]

/-- Each bucket of `groupByDay` is the subsequence of input points whose
local day is the key. -/
theorem groupByDay_eq_filter (points : List (TrackPoint ℚ)) (offsetSeconds : Int)
    (k : Int × Int × Int) :
    groupByDay points offsetSeconds k
      = points.filter (fun p => decide (localDay offsetSeconds p = k)) := by
  unfold groupByDay
  rw [groupByDay_foldl_apply]
  simp

/-- C4: two points lie in a common bucket of `groupByDay` exactly when
their local calendar dates agree, and every bucket preserves the input
order (it is a sublist of the input). -/
theorem groupByDay_same_day_iff (points : List (TrackPoint ℚ)) (offsetSeconds : Int)
    (k : Int × Int × Int) (p q : TrackPoint ℚ) :
    ((p ∈ groupByDay points offsetSeconds k ∧ q ∈ groupByDay points offsetSeconds k) →
        localDay offsetSeconds p = localDay offsetSeconds q) ∧
    (p ∈ points → q ∈ points →
      localDay offsetSeconds p = localDay offsetSeconds q →
        p ∈ groupByDay points offsetSeconds (localDay offsetSeconds p) ∧
        q ∈ groupByDay points offsetSeconds (localDay offsetSeconds p)) ∧
    (groupByDay points offsetSeconds k).Sublist points := by
  refine ⟨?_, ?_, ?_⟩
  · rintro ⟨hp, hq⟩
    rw [groupByDay_eq_filter] at hp hq
    have hp' := (List.mem_filter.mp hp).2
    have hq' := (List.mem_filter.mp hq).2
    simp only [decide_eq_true_eq] at hp' hq'
    rw [hp', hq']
  · intro hp hq hpq
    constructor
    · rw [groupByDay_eq_filter]
      exact List.mem_filter.mpr ⟨hp, by simp⟩
    · rw [groupByDay_eq_filter]
      exact List.mem_filter.mpr ⟨hq, by simp [hpq]⟩
  · rw [groupByDay_eq_filter]
    exact List.filter_sublist points

theorem groupByDay_same_day_iff_witness :
    tpT 1717286340 ∈ groupByDay [tpT 1717286340, tpT 1717286460] 7200
        (localDay 7200 (tpT 1717286340)) ∧
    tpT 1717286460 ∈ groupByDay [tpT 1717286340, tpT 1717286460] 7200
        (localDay 7200 (tpT 1717286340)) :=
  (groupByDay_same_day_iff [tpT 1717286340, tpT 1717286460] 7200
    (localDay 7200 (tpT 1717286340)) (tpT 1717286340) (tpT 1717286460)).2.1
    (by decide) (by decide) (by decide)

theorem sum_map_add_nat {β : Type} (ks : List β) (f g : β → Nat) :
    (ks.map (fun k => f k + g k)).sum = (ks.map f).sum + (ks.map g).sum := by
  induction ks with
  | nil => simp
  | cons k ks ih => simp [ih]; omega

theorem sum_indicator_not_mem {β : Type} [DecidableEq β] (x : β) :
    ∀ ks : List β, x ∉ ks → (ks.map (fun k => if x = k then (1:Nat) else 0)).sum = 0 := by
  intro ks
  induction ks with
  | nil => intro _; simp
  | cons k ks ih =>
      intro hx
      simp only [List.map_cons, List.sum_cons]
      have hxk : x ≠ k := fun h => hx (by rw [h]; exact List.mem_cons_self k ks)
      rw [if_neg hxk, ih (fun h => hx (List.mem_cons_of_mem k h))]

theorem sum_indicator_mem {β : Type} [DecidableEq β] (x : β) :
    ∀ ks : List β, ks.Nodup → x ∈ ks →
      (ks.map (fun k => if x = k then (1:Nat) else 0)).sum = 1 := by
  intro ks
  induction ks with
  | nil => intro _ hx; simp at hx
  | cons k ks ih =>
      intro hnd hx
      simp only [List.map_cons, List.sum_cons]
      by_cases hk : x = k
      · rw [if_pos hk, sum_indicator_not_mem x ks (hk ▸ (List.nodup_cons.mp hnd).1)]
      · rw [if_neg hk, ih (List.nodup_cons.mp hnd).2
          ((List.mem_cons.mp hx).resolve_left hk), Nat.zero_add]

/-- Summing bucket sizes over a duplicate-free key list that covers every
point's day recovers the number of points. -/
theorem sum_bucket_lengths (offsetSeconds : Int) :
    ∀ (points : List (TrackPoint ℚ)) (ks : List (Int × Int × Int)), ks.Nodup →
      (∀ p ∈ points, localDay offsetSeconds p ∈ ks) →
      (ks.map (fun k =>
        (points.filter (fun p => decide (localDay offsetSeconds p = k))).length)).sum
        = points.length := by
  intro points
  induction points with
  | nil => intro ks _ _; simp
  | cons p ps ih =>
      intro ks hnd hcov
      have hmap : ks.map (fun k =>
            ((p :: ps).filter (fun q => decide (localDay offsetSeconds q = k))).length)
          = ks.map (fun k =>
            (ps.filter (fun q => decide (localDay offsetSeconds q = k))).length
              + if localDay offsetSeconds p = k then 1 else 0) := by
        refine List.map_congr_left ?_
        intro k _
        rw [List.filter_cons]
        by_cases hk : localDay offsetSeconds p = k
        · simp [hk]
        · simp [hk]
      rw [hmap, sum_map_add_nat,
        ih ks hnd (fun q hq => hcov q (List.mem_cons_of_mem p hq)),
        sum_indicator_mem (localDay offsetSeconds p) ks hnd
          (hcov p (List.mem_cons_self p ps))]
      simp

/-- C9: `groupByDay` partitions its input: a point only ever sits in the
bucket of its own day, it occurs there exactly as often as in the input,
and the bucket sizes over the days present sum to the input length. -/
theorem groupByDay_partition (points : List (TrackPoint ℚ)) (offsetSeconds : Int) :
    (∀ (p : TrackPoint ℚ) (k : Int × Int × Int),
        p ∈ groupByDay points offsetSeconds k → k = localDay offsetSeconds p) ∧
    (∀ p : TrackPoint ℚ,
        (groupByDay points offsetSeconds (localDay offsetSeconds p)).count p
          = points.count p) ∧
    ((points.map (localDay offsetSeconds)).dedup.map
        (fun k => (groupByDay points offsetSeconds k).length)).sum
      = points.length := by
  refine ⟨?_, ?_, ?_⟩
  · intro p k hp
    rw [groupByDay_eq_filter] at hp
    have := (List.mem_filter.mp hp).2
    simp only [decide_eq_true_eq] at this
    exact this.symm
  · intro p
    rw [groupByDay_eq_filter]
    exact List.count_filter (by simp)
  · have hrw : ∀ k, groupByDay points offsetSeconds k
        = points.filter (fun p => decide (localDay offsetSeconds p = k)) :=
      groupByDay_eq_filter points offsetSeconds
    simp only [hrw]
    exact sum_bucket_lengths offsetSeconds points
      (points.map (localDay offsetSeconds)).dedup
      ((points.map (localDay offsetSeconds)).nodup_dedup)
      (fun p hp => List.mem_dedup.mpr (List.mem_map_of_mem _ hp))

theorem groupByDay_partition_witness :
    (2024, 6, 2) = localDay 7200 (tpT 1717286340) ∧
    (groupByDay [tpT 1717286340, tpT 1717286460] 7200
        (localDay 7200 (tpT 1717286340))).count (tpT 1717286340)
      = ([tpT 1717286340, tpT 1717286460] : List (TrackPoint ℚ)).count (tpT 1717286340) :=
  ⟨(groupByDay_partition [tpT 1717286340, tpT 1717286460] 7200).1
      (tpT 1717286340) (2024, 6, 2) (by decide),
   (groupByDay_partition [tpT 1717286340, tpT 1717286460] 7200).2.1 (tpT 1717286340)⟩

theorem map_range_getD {β : Type} [Inhabited β] (n : Nat) (g : Nat → β) (i : Nat)
    (h : i < n) : ((List.range n).map g).getD i default = g i := by
  rw [List.getD_eq_getElem _ _ (by simpa using h), List.getElem_map]
  congr 1
  simp [List.getElem_range]

/-- The Go window `[start..end]` is the index interval from `max(0, i-h)`
to `min(n-1, i+h)` with `h` the half window as a natural number. -/
theorem windowIdxs_eq (n : Nat) (half : Int) (i : Nat) (hhalf : 0 ≤ half)
    (hn : 1 ≤ n) (hi : i < n) :
    windowIdxs n half i
      = List.range' (i - half.toNat)
          (min (i + half.toNat) (n - 1) + 1 - (i - half.toNat)) := by
  simp only [windowIdxs]
  split_ifs with h1 h2 h2 <;> (congr 1 <;> omega)

theorem windowVals_eq (points : List (TrackPoint ℚ)) (f : TrackPoint ℚ → ℚ)
    (lo cnt : Nat) (hbound : lo + cnt ≤ points.length) :
    (List.range' lo cnt).map (fun j => f (points.getD j default))
      = (List.range' lo cnt).map (fun j => (points.map f).getD j 0) := by
  refine List.map_congr_left ?_
  intro j hj
  obtain ⟨m, hm, rfl⟩ := List.mem_range'.mp hj
  have hjn : lo + 1 * m < points.length := by omega
  rw [List.getD_eq_getElem _ _ hjn,
    List.getD_eq_getElem _ _ (by simpa using hjn), List.getElem_map]

theorem normWindow_pos (W : Int) (hW : 1 ≤ W) :
    1 ≤ (if W % 2 = 0 then W + 1 else W) := by
  split_ifs <;> omega

theorem applyMovingAverage_getD (points : List (TrackPoint ℚ)) (W : Int)
    (hW : 1 ≤ W) (i : Nat) (hi : i < points.length) :
    (applyMovingAverage points W).getD i default
      = { points.getD i default with
          elevation := specWindowMean (points.map TrackPoint.elevation) W i } := by
  have hcond : ¬(W < 1 ∨ points.length = 0) := by
    push_neg
    exact ⟨by omega, by omega⟩
  have hhalf : 0 ≤ (if W % 2 = 0 then W + 1 else W) / 2 :=
    Int.ediv_nonneg (by have := normWindow_pos W hW; omega) (by norm_num)
  simp only [applyMovingAverage]
  rw [if_neg hcond, map_range_getD _ _ _ hi]
  rw [windowIdxs_eq points.length _ i hhalf (by omega) hi]
  rw [windowVals_eq points TrackPoint.elevation _ _ (by omega)]
  simp only [specWindowMean, List.length_map, List.length_range']

theorem applyLatLonSmoothing_getD (points : List (TrackPoint ℚ)) (W : Int)
    (hW : 1 ≤ W) (i : Nat) (hi : i < points.length) :
    (applyLatLonSmoothing points W).getD i default
      = { points.getD i default with
          latitude := specWindowMean (points.map TrackPoint.latitude) W i
          longitude := specWindowMean (points.map TrackPoint.longitude) W i } := by
  have hcond : ¬(W < 1 ∨ points.length = 0) := by
    push_neg
    exact ⟨by omega, by omega⟩
  have hhalf : 0 ≤ (if W % 2 = 0 then W + 1 else W) / 2 :=
    Int.ediv_nonneg (by have := normWindow_pos W hW; omega) (by norm_num)
  simp only [applyLatLonSmoothing]
  rw [if_neg hcond, map_range_getD _ _ _ hi]
  rw [windowIdxs_eq points.length _ i hhalf (by omega) hi]
  rw [windowVals_eq points TrackPoint.latitude _ _ (by omega),
    windowVals_eq points TrackPoint.longitude _ _ (by omega)]
  simp only [specWindowMean, List.length_map, List.length_range']

theorem applyMovingAverage_length (points : List (TrackPoint ℚ)) (W : Int) :
    (applyMovingAverage points W).length = points.length := by
  by_cases h : W < 1 ∨ points.length = 0
  · simp only [applyMovingAverage, if_pos h]
  · simp only [applyMovingAverage, if_neg h]
    simp

theorem applyLatLonSmoothing_length (points : List (TrackPoint ℚ)) (W : Int) :
    (applyLatLonSmoothing points W).length = points.length := by
  by_cases h : W < 1 ∨ points.length = 0
  · simp only [applyLatLonSmoothing, if_pos h]
  · simp only [applyLatLonSmoothing, if_neg h]
    simp

/-- C2: both smoothers keep the length and set the smoothed field at each
index to the clipped-window arithmetic mean (window `W+1` for even `W`,
divisor the actual window size); empty input or `W < 1` returns the input
unchanged. -/
theorem smoothing_is_clipped_window_mean (points : List (TrackPoint ℚ)) (W : Int) :
    (points = [] ∨ W < 1 →
      applyMovingAverage points W = points ∧ applyLatLonSmoothing points W = points) ∧
    (1 ≤ W → points ≠ [] →
      (applyMovingAverage points W).length = points.length ∧
      (applyLatLonSmoothing points W).length = points.length ∧
      ∀ i < points.length,
        ((applyMovingAverage points W).getD i default).elevation
          = specWindowMean (points.map TrackPoint.elevation) W i ∧
        ((applyLatLonSmoothing points W).getD i default).latitude
          = specWindowMean (points.map TrackPoint.latitude) W i ∧
        ((applyLatLonSmoothing points W).getD i default).longitude
          = specWindowMean (points.map TrackPoint.longitude) W i) := by
  constructor
  · intro h
    have hguard : W < 1 ∨ points.length = 0 := by
      rcases h with h | h
      · right; simp [h]
      · left; exact h
    constructor
    · simp only [applyMovingAverage, if_pos hguard]
    · simp only [applyLatLonSmoothing, if_pos hguard]
  · intro hW hne
    refine ⟨applyMovingAverage_length points W, applyLatLonSmoothing_length points W,
      fun i hi => ?_⟩
    rw [applyMovingAverage_getD points W hW i hi,
      applyLatLonSmoothing_getD points W hW i hi]
    exact ⟨rfl, rfl, rfl⟩

theorem smoothing_is_clipped_window_mean_witness :
    (applyMovingAverage [tpQ 1, tpQ 4] 2).length = 2 ∧
    ((applyMovingAverage [tpQ 1, tpQ 4] 2).getD 0 default).elevation
      = specWindowMean [1, 4] 2 0 := by
  have h := (smoothing_is_clipped_window_mean [tpQ 1, tpQ 4] 2).2
    (by norm_num) (by simp)
  refine ⟨h.1, ?_⟩
  have h0 := (h.2.2 0 (by norm_num)).1
  simpa [tpQ] using h0

/-- C7: smoothing is frame-preserving: lengths are kept, `applyMovingAverage`
only rewrites the elevation (latitude, longitude and timestamp of the point
at every index are unchanged), and `applyLatLonSmoothing` only rewrites
latitude and longitude (elevation and timestamp unchanged). -/
theorem smoothing_frame (points : List (TrackPoint ℚ)) (W : Int) (i : Nat) :
    (applyMovingAverage points W).length = points.length ∧
    (applyLatLonSmoothing points W).length = points.length ∧
    ((applyMovingAverage points W).getD i default).latitude
      = (points.getD i default).latitude ∧
    ((applyMovingAverage points W).getD i default).longitude
      = (points.getD i default).longitude ∧
    ((applyMovingAverage points W).getD i default).time
      = (points.getD i default).time ∧
    ((applyLatLonSmoothing points W).getD i default).elevation
      = (points.getD i default).elevation ∧
    ((applyLatLonSmoothing points W).getD i default).time
      = (points.getD i default).time := by
  refine ⟨applyMovingAverage_length points W, applyLatLonSmoothing_length points W,
    ?_, ?_, ?_, ?_, ?_⟩ <;>
  · by_cases hguard : W < 1 ∨ points.length = 0
    · first
        | (simp only [applyMovingAverage, if_pos hguard])
        | (simp only [applyLatLonSmoothing, if_pos hguard])
    · have hW : 1 ≤ W := by omega
      by_cases hi : i < points.length
      · first
          | (rw [applyMovingAverage_getD points W hW i hi])
          | (rw [applyLatLonSmoothing_getD points W hW i hi])
      · rw [List.getD_eq_default points default (by omega),
          List.getD_eq_default _ _
            (by first
                  | (rw [applyMovingAverage_length]; omega)
                  | (rw [applyLatLonSmoothing_length]; omega))]
